import Mathlib

/-!
A verification development for the Code Archaeologist frontend.

The definitions below are a shallow embedding of the JavaScript source:

* `validateRepoFormat` and `analyzeRepo` from `App.jsx`
  (packaged inside `src/code-archaeologist/src/components/DependencyGraph.jsx`,
  lines 641-699 of that file);
* `processedData`, `selectedImports` and `selectedImportedBy` from the
  `DependencyGraph` component (same file, lines 19-22, 76-159);
* `countFiles` from the `FileTree` component and from the `Report`
  component;
* the defaulted field reads of the `AIDetection` component.

JavaScript idioms are modelled explicitly: absent object fields are
`Option.none`, the `||` operator tests truthiness (for strings, `undefined`
and `""` are falsy; for numbers, `undefined` and `0` are falsy), objects
used as counters are insertion-ordered association lists, and indexing an
object with `undefined` uses the key `"undefined"`.
-/

namespace Hackday

/-! ### JavaScript-style helpers -/

/-- Truthiness of an optional string: `undefined` and `""` are falsy. -/
def truthyS : Option String → Bool
  | none => false
  | some s => if s = "" then false else true

/-- The JavaScript expression `a || b` on optional strings. -/
def jsOr (a b : Option String) : Option String :=
  if truthyS a then a else b

/-- JavaScript `String.prototype.trim`: drop whitespace from both ends. -/
def jsTrim (cs : List Char) : List Char :=
  ((cs.dropWhile Char.isWhitespace).reverse.dropWhile Char.isWhitespace).reverse

/-- `trim` as a map on `String`. -/
def jsTrimS (s : String) : String :=
  String.mk (jsTrim s.toList)

/-! ### URL validation (`App.jsx`, `validateRepoFormat` and `analyzeRepo`) -/

/-- Character class `[a-zA-Z0-9_-]`: the owner segment of the URL pattern. -/
def ownerChar (c : Char) : Bool :=
  c.isAlpha || c.isDigit || c = '_' || c = '-'

/-- Character class `[a-zA-Z0-9_.-]`: the repository segment. -/
def repoChar (c : Char) : Bool :=
  ownerChar c || c = '.'

/-- Consume the literal `lit` from the front of `cs`; `none` when `lit` is
not a prefix of `cs`. -/
def dropLit : List Char → List Char → Option (List Char)
  | [], cs => some cs
  | _ :: _, [] => none
  | l :: ls, c :: cs => if c = l then dropLit ls cs else none

/-- The characters of `"http"`. -/
def httpLit : List Char := ['h', 't', 't', 'p']

/-- The characters of `"://github.com/"`. -/
def hostLit : List Char := [':', '/', '/', 'g', 'i', 't', 'h', 'u', 'b', '.', 'c', 'o', 'm', '/']

/-- Consume the optional `s` of `https?`.  The literal that follows starts
with `:`, so consuming a leading `s` greedily agrees with the backtracking
semantics of the regular expression. -/
def schemeRest : List Char → List Char
  | 's' :: rest => rest
  | cs => cs

/-- The anchored pattern of `validateRepoFormat`,
`^https?:\/\/github\.com\/[a-zA-Z0-9_-]+\/[a-zA-Z0-9_.-]+(\.git)?$`,
as a deterministic matcher.  Backtracking is not needed: `/` is in neither
character class, so the owner segment must be the maximal run of owner
characters followed by `/`; the characters of `.git` all lie in the
repository class, so `[a-zA-Z0-9_.-]+(\.git)?` accepts exactly the
nonempty strings over that class; and the optional `s` is committed
because the literal after it starts with `:`. -/
def matchRepoUrl (cs : List Char) : Bool :=
  match dropLit httpLit cs with
  | none => false
  | some cs1 =>
    match dropLit hostLit (schemeRest cs1) with
    | none => false
    | some cs2 =>
      match cs2.dropWhile ownerChar with
      | '/' :: r =>
        decide (cs2.takeWhile ownerChar ≠ []) && (decide (r ≠ []) && r.all repoChar)
      | _ => false

/-- `validateRepoFormat`: trim the input and test it against the URL
pattern. -/
def validateRepoFormat (url : String) : Bool :=
  matchRepoUrl (jsTrim url.toList)

/-- The characters an accepted URL may contain: alphanumerics and `_`,
`-`, `.`, `/`, `:`.  Shell metacharacters (semicolon, pipe, ampersand,
dollar, backquote, angle brackets, parentheses, spaces, quotes) are all
outside this set. -/
def safeChar (c : Char) : Bool :=
  c.isAlpha || c.isDigit || c = '_' || c = '-' || c = '.' || c = '/' || c = ':'

/-- Outcome of `analyzeRepo` up to the `fetch` call: the error message set,
and whether the network request was reached. -/
structure AnalyzeOutcome where
  error : Option String
  requested : Bool
deriving DecidableEq

/-- The validation phase of `analyzeRepo`: trim, reject the empty string,
reject a string failing `validateRepoFormat`, otherwise reach the network
request.  The asynchronous steps after the `fetch` call do not affect any
claim and are not modelled. -/
def analyzeRepo (repoUrl : String) : AnalyzeOutcome :=
  let trimmedUrl := jsTrimS repoUrl
  if trimmedUrl = "" then
    ⟨some "Please enter a GitHub repository URL", false⟩
  else if validateRepoFormat trimmedUrl = false then
    ⟨some "Invalid URL format. Example: https://github.com/username/repo.git", false⟩
  else
    ⟨none, true⟩

/-! ### The dependency graph (`DependencyGraph.jsx`, `processedData`) -/

/-- An entry of `data.nodes` in the backend format; absent JSON fields are
`none`.  The `type` field is called `ntype` here. -/
structure NodeIn where
  id : Nat
  path : Option String
  name : Option String
  ntype : Option String
deriving DecidableEq

/-- An entry of `data.edges` in the backend format. -/
structure EdgeIn where
  source : Nat
  target : Nat
deriving DecidableEq

/-- `node.path || node.name`. -/
def jsFile (n : NodeIn) : Option String :=
  jsOr n.path n.name

/-- The file of a node, defaulting to the empty string.  The default is
reachable only when `jsFile n` is `undefined`, and then the component
throws (see `processedBackend`), so no theorem depends on it. -/
def fileD (n : NodeIn) : String :=
  (jsFile n).getD ""

/-- The `nodeMap` lookup: the map is filled in node order by
`nodeMap[node.id] = node.path || node.name`, so a repeated id keeps the
last write. -/
def nodeMapLookup (ns : List NodeIn) (i : Nat) : Option String :=
  ns.foldl (fun acc n => if n.id = i then jsFile n else acc) none

/-- A processed node of the graph. -/
structure PNode where
  file : Option String
  imports : List String
  nid : Option Nat
  ntype : Option String
deriving DecidableEq

/-- A processed edge; `efrom` and `eto` model the `from` and `to` fields. -/
structure PEdge where
  efrom : Option String
  eto : Option String
deriving DecidableEq

/-- `getFileExtension`: the regex `\.[^.]+$` matches the last dot of the
path together with the nonempty dot-free tail after it; without a match
the result is the empty string. -/
def getFileExtension (path : String) : String :=
  let rev := path.toList.reverse
  let after := rev.takeWhile (fun c => !(c = '.'))
  if after.length = rev.length then ""
  else if after.isEmpty then ""
  else String.mk ('.' :: after.reverse)

/-- JavaScript `String.replace` with a string pattern replaces only the
first occurrence.  It is applied to results of `getFileExtension`, which
contain at most one dot. -/
def removeFirstDot : List Char → List Char
  | [] => []
  | c :: rest => if c = '.' then rest else c :: removeFirstDot rest

/-- `ext.replace` removing the dot of an extension. -/
def extNoDot (s : String) : String :=
  String.mk (removeFirstDot s.toList)

/-- The node constructor of the backend branch:
`file` is `node.path || node.name`, `imports` starts empty, and `type` is
`node.type || getFileExtension(node.path || node.name).replace` without
its dot. -/
def mkPNode (n : NodeIn) : PNode :=
  ⟨jsFile n, [], some n.id,
    if truthyS n.ntype then n.ntype else some (extNoDot (getFileExtension (fileD n)))⟩

/-- `nodes.find` on `n.file === sourceFile` followed by
`sourceNode.imports.push(targetFile)`: append `t` to the imports of the
first node whose `file` equals `sf`; when no node matches, nothing
changes. -/
def pushImport (sf : Option String) (t : String) : List PNode → List PNode
  | [] => []
  | n :: rest =>
    if n.file = sf then ⟨n.file, n.imports ++ [t], n.nid, n.ntype⟩ :: rest
    else n :: pushImport sf t rest

/-- JavaScript object keys are strings; indexing with `undefined` uses the
key `"undefined"` (the edge loop indexes `connectionCounts` with possibly
undefined files). -/
def jsKey : Option String → String
  | none => "undefined"
  | some s => s

/-- `m[k] = (m[k] || 0) + v` on an insertion-ordered object: update the
entry in place, or append a fresh one. -/
def jsAddCount : List (String × Nat) → String → Nat → List (String × Nat)
  | [], k, v => [(k, v)]
  | p :: rest, k, v =>
    if p.1 = k then (p.1, p.2 + v) :: rest else p :: jsAddCount rest k v

/-- `m[k] || 0`. -/
def lookupCount : List (String × Nat) → String → Nat
  | [], _ => 0
  | p :: rest, k => if p.1 = k then p.2 else lookupCount rest k

/-- One iteration of the backend edge loop over the state
`(nodes, edges, connectionCounts)`: resolve both endpoints through the
node map, push the resolved target onto the imports of the source node
when both the found node and the target file are truthy, bump both
connection counts, and push the edge unconditionally. -/
def edgeStep (ns : List NodeIn) (st : List PNode × List PEdge × List (String × Nat))
    (e : EdgeIn) : List PNode × List PEdge × List (String × Nat) :=
  let sourceFile := nodeMapLookup ns e.source
  let targetFile := nodeMapLookup ns e.target
  let nodes :=
    match targetFile with
    | some t => if t = "" then st.1 else pushImport sourceFile t st.1
    | none => st.1
  let counts := jsAddCount (jsAddCount st.2.2 (jsKey sourceFile) 1) (jsKey targetFile) 1
  let edges := st.2.1 ++ [⟨sourceFile, targetFile⟩]
  (nodes, edges, counts)

/-- `getFileExtension(file) || '.other'`. -/
def extKey (f : String) : String :=
  if getFileExtension f = "" then ".other" else getFileExtension f

/-- The `byType` histogram over the processed nodes.  Every rendered graph
has string files; an undefined `file` would make `getFileExtension` throw
(see `processedBackend`). -/
def buildByType (nodes : List PNode) : List (String × Nat) :=
  nodes.foldl (fun m n => jsAddCount m (extKey (n.file.getD "")) 1) []

/-- The value of `processedData`. -/
structure Processed where
  nodes : List PNode
  edges : List PEdge
  connectionCounts : List (String × Nat)
  byType : List (String × Nat)
deriving DecidableEq

/-- The backend branch of `processedData`, ignoring the throw on an
undefined node file (see `processedBackend`). -/
def processedBackendCore (ns : List NodeIn) (es : List EdgeIn) : Processed :=
  let st := es.foldl (edgeStep ns) (ns.map mkPNode, [], [])
  ⟨st.1, st.2.1, st.2.2, buildByType st.1⟩

/-- The backend branch with its failure mode: when some node has neither a
truthy `path` nor a `name`, `getFileExtension` is applied to `undefined`
(in the node `type` computation or in the `byType` loop) and the
component throws a `TypeError`, modelled as `none`. -/
def processedBackend (ns : List NodeIn) (es : List EdgeIn) : Option Processed :=
  if ns.all (fun n => (jsFile n).isSome) then some (processedBackendCore ns es) else none

/-- One iteration of the legacy branch over an `Object.entries` item; an
entry whose value is not an array (`none` here) is skipped.  The code
pushes the node, adds the whole out-degree to the count of `file`, and
then per import pushes an edge and bumps the count of the import. -/
def legacyStep (st : List PNode × List PEdge × List (String × Nat))
    (entry : String × Option (List String)) : List PNode × List PEdge × List (String × Nat) :=
  match entry.2 with
  | none => st
  | some imps =>
    let nodes := st.1 ++ [⟨some entry.1, imps, none, none⟩]
    let counts0 := jsAddCount st.2.2 entry.1 imps.length
    let ec := imps.foldl
      (fun ec imp => (ec.1 ++ [(⟨some entry.1, some imp⟩ : PEdge)], jsAddCount ec.2 imp 1))
      (st.2.1, counts0)
    (nodes, ec.1, ec.2)

/-- The legacy branch of `processedData` over the entries of a
`{ file: [imports] }` object. -/
def processedLegacyCore (entries : List (String × Option (List String))) : Processed :=
  let st := entries.foldl legacyStep ([], [], [])
  ⟨st.1, st.2.1, st.2.2, buildByType st.1⟩

/-- `Array.prototype.includes` on strings. -/
def includesStr : List String → String → Bool
  | [], _ => false
  | s :: rest, x => if s = x then true else includesStr rest x

/-- `nodes.find` on `n.file === f`: the first node whose file is `f`. -/
def findNode : List PNode → Option String → Option PNode
  | [], _ => none
  | n :: rest, sf => if n.file = sf then some n else findNode rest sf

/-- `selectedImports`: a falsy (empty) selected file short circuits to the
empty list; otherwise the imports of the first node carrying that file. -/
def selectedImports (nodes : List PNode) (selectedFile : String) : List String :=
  if selectedFile = "" then []
  else
    match findNode nodes (some selectedFile) with
    | some n => n.imports
    | none => []

/-- `selectedImportedBy`: the files of the nodes importing the selected
file. -/
def selectedImportedBy (nodes : List PNode) (selectedFile : String) : List (Option String) :=
  if selectedFile = "" then []
  else (nodes.filter (fun n => includesStr n.imports selectedFile)).map (fun n => n.file)

/-- Resolution of one backend edge through the node map. -/
def edgeOf (ns : List NodeIn) (e : EdgeIn) : PEdge :=
  ⟨nodeMapLookup ns e.source, nodeMapLookup ns e.target⟩

/-- Modelled from the spec, for the refinement claim: the canonical legacy
`{ file: [imports] }` representation of a backend graph.  One entry per
node, in node order; the imports of a node are the resolved targets of
the edges leaving it, in edge order. -/
def legacyOf (ns : List NodeIn) (es : List EdgeIn) : List (String × Option (List String)) :=
  ns.map (fun n =>
    (fileD n,
      some (es.filterMap (fun e => if e.source = n.id then nodeMapLookup ns e.target else none))))

/-- The edges contributed by one legacy entry. -/
def entryEdges (entry : String × Option (List String)) : List PEdge :=
  match entry.2 with
  | none => []
  | some imps => imps.map (fun imp => ⟨some entry.1, some imp⟩)

/-- All edges of a legacy input, in processing order. -/
def legacyEdgesOf : List (String × Option (List String)) → List PEdge
  | [] => []
  | entry :: rest => entryEdges entry ++ legacyEdgesOf rest

/-- Contribution of one edge to `connectionCounts` at key `k`: each edge
bumps the key of each of its two endpoints once. -/
def wkey (k : String) (pe : PEdge) : Nat :=
  (if k = jsKey pe.efrom then 1 else 0) + (if k = jsKey pe.eto then 1 else 0)

/-- Invariant relation on processed node lists: a later node sharing the
file of an earlier node never holds imports, because every push targets
the first node carrying the file. -/
def RImp (a b : PNode) : Prop :=
  a.file = b.file → b.imports = []

/-! ### The file tree (`FileTree.jsx` and `Report.jsx`, `countFiles`) -/

/-- A file-tree node: the `type` and `children` fields are the ones
`countFiles` inspects; a file node carries no `children` key (`none`). -/
inductive FNode where
  | mk (name : String) (ftype : String) (children : Option (List FNode)) : FNode

/-- The `type` field. -/
def FNode.ftype : FNode → String
  | .mk _ t _ => t

/-- The `children` field. -/
def FNode.childList : FNode → Option (List FNode)
  | .mk _ _ cs => cs

mutual

/-- `countFiles` of the `FileTree` component: a node of type `file` counts
as one file; any other node counts as one folder, plus the recursive
counts of its children (an absent or empty `children` array contributes
nothing).  The result is `(files, folders)`. -/
def countFiles : FNode → Nat × Nat
  | .mk _ t cs =>
    if t = "file" then (1, 0)
    else
      match cs with
      | some l => countFilesGo l (0, 1)
      | none => (0, 1)

/-- The `forEach` accumulation inside `countFiles`. -/
def countFilesGo : List FNode → Nat × Nat → Nat × Nat
  | [], acc => acc
  | c :: rest, acc =>
    countFilesGo rest (acc.1 + (countFiles c).1, acc.2 + (countFiles c).2)

end

mutual

/-- `countFiles` of the `Report` component: identical to the `FileTree`
version except that a null input returns zero counts. -/
def countFilesR : Option FNode → Nat × Nat
  | none => (0, 0)
  | some (.mk _ t cs) =>
    if t = "file" then (1, 0)
    else
      match cs with
      | some l => countFilesRGo l (0, 1)
      | none => (0, 1)
termination_by o => sizeOf o

/-- The `forEach` accumulation inside the `Report` version. -/
def countFilesRGo : List FNode → Nat × Nat → Nat × Nat
  | [], acc => acc
  | c :: rest, acc =>
    countFilesRGo rest (acc.1 + (countFilesR (some c)).1, acc.2 + (countFilesR (some c)).2)
termination_by l _ => sizeOf l + 1

end

mutual

/-- Specification count: the number of nodes of type `file` in the
subtree. -/
def numFiles : FNode → Nat
  | .mk _ t cs => (if t = "file" then 1 else 0) + numFilesGo cs

/-- `numFiles` over an optional child list. -/
def numFilesGo : Option (List FNode) → Nat
  | none => 0
  | some [] => 0
  | some (c :: rest) => numFiles c + numFilesGo (some rest)

end

mutual

/-- Specification count: the number of nodes of any type other than `file`
in the subtree. -/
def numFolders : FNode → Nat
  | .mk _ t cs => (if t = "file" then 0 else 1) + numFoldersGo cs

/-- `numFolders` over an optional child list. -/
def numFoldersGo : Option (List FNode) → Nat
  | none => 0
  | some [] => 0
  | some (c :: rest) => numFolders c + numFoldersGo (some rest)

end

/-- No children: the `children` field is absent or an empty array. -/
def noChildren : Option (List FNode) → Bool
  | none => true
  | some [] => true
  | some (_ :: _) => false

mutual

/-- Wellformedness of a file-tree node, per the data model: a node of type
`file` has no children (its `children` field is absent or empty), and the
condition holds recursively. -/
def wfTree : FNode → Bool
  | .mk _ t cs => (if t = "file" then noChildren cs else true) && wfTreeGo cs

/-- `wfTree` over an optional child list. -/
def wfTreeGo : Option (List FNode) → Bool
  | none => true
  | some [] => true
  | some (c :: rest) => wfTree c && wfTreeGo (some rest)

end

/-! ### AI detection (`AIDetection.jsx`) -/

/-- The fields of the `ai_detection` payload read with defaults.  JSON
numbers are modelled as integers; `NaN` has no counterpart here. -/
structure AIData where
  ai_percentage : Option Int
  human_percentage : Option Int
  confidence : Option String
deriving DecidableEq

/-- The derived values the component renders. -/
structure RenderedAI where
  aiPercentage : Int
  humanPercentage : Int
  confidence : String
deriving DecidableEq

/-- `a || b` for an optional number: `undefined` and `0` are falsy. -/
def jsOrNum (a : Option Int) (b : Int) : Int :=
  match a with
  | none => b
  | some v => if v = 0 then b else v

/-- `a || b` for an optional string with a string default. -/
def jsOrStr (a : Option String) (b : String) : String :=
  match a with
  | none => b
  | some s => if s = "" then b else s

/-- The defaulted field reads of `AIDetection`:
`data.ai_percentage || 0`, `data.human_percentage || (100 - aiPercentage)`
and `data.confidence || 'low'`. -/
def render (d : AIData) : RenderedAI :=
  let aiPercentage := jsOrNum d.ai_percentage 0
  ⟨aiPercentage, jsOrNum d.human_percentage (100 - aiPercentage), jsOrStr d.confidence "low"⟩

/-- The `AIDetection` component: a falsy `data` renders the no-data branch
(`none` here); otherwise the derived values are rendered.  The function is
total over all payload shapes of the model. -/
def AIDetection (data : Option AIData) : Option RenderedAI :=
  match data with
  | none => none
  | some d => some (render d)

/-! ### Concrete sample inputs used by witnesses and counterexamples -/

/-- A two-node backend graph with a duplicated edge. -/
def sampleNodes : List NodeIn :=
  [⟨1, some "src/a.py", none, none⟩, ⟨2, some "src/b.py", none, none⟩]

/-- Two copies of the same edge between the two sample nodes. -/
def sampleEdges : List EdgeIn :=
  [⟨1, 2⟩, ⟨1, 2⟩]

/-- A small wellformed file tree: a root folder with one file and one
subfolder holding one file. -/
def sampleTree : FNode :=
  .mk "root" "folder"
    (some [.mk "a.py" "file" none, .mk "sub" "folder" (some [.mk "b.py" "file" none])])

/-! ## General lemmas about the helpers -/

theorem lookupCount_jsAddCount (m : List (String × Nat)) (k : String) (v : Nat) (q : String) :
    lookupCount (jsAddCount m k v) q = lookupCount m q + (if q = k then v else 0) := by
  induction m with
  | nil =>
    simp only [jsAddCount, lookupCount]
    by_cases h : k = q
    · rw [if_pos h, if_pos h.symm]; omega
    · rw [if_neg h, if_neg (fun hh : q = k => h hh.symm)]
  | cons p rest ih =>
    by_cases h1 : p.1 = k
    · simp only [jsAddCount, if_pos h1, lookupCount]
      by_cases h2 : p.1 = q
      · rw [if_pos h2, if_pos h2, if_pos (h2.symm.trans h1)]
      · rw [if_neg h2, if_neg h2, if_neg (fun hh : q = k => h2 (h1.trans hh.symm))]
        omega
    · simp only [jsAddCount, if_neg h1, lookupCount]
      by_cases h2 : p.1 = q
      · rw [if_pos h2, if_pos h2, if_neg (fun hh : q = k => h1 (h2.trans hh))]
        omega
      · rw [if_neg h2, if_neg h2]; exact ih

theorem sum_snd_jsAddCount (m : List (String × Nat)) (k : String) (v : Nat) :
    ((jsAddCount m k v).map Prod.snd).sum = (m.map Prod.snd).sum + v := by
  induction m with
  | nil => simp [jsAddCount]
  | cons p rest ih =>
    simp only [jsAddCount]
    split_ifs with h1 <;> simp [List.sum_cons, ih] <;> omega

theorem includesStr_iff (l : List String) (x : String) :
    includesStr l x = true ↔ x ∈ l := by
  induction l with
  | nil => simp [includesStr]
  | cons s rest ih =>
    simp only [includesStr]
    by_cases h : s = x
    · subst h; simp
    · rw [if_neg h]
      constructor
      · intro hin; exact List.mem_cons_of_mem s (ih.mp hin)
      · intro hin
        rcases List.mem_cons.mp hin with h2 | h2
        · exact absurd h2.symm h
        · exact ih.mpr h2

theorem sum_map_add {α : Type} (l : List α) (f g : α → Nat) :
    (l.map (fun a => f a + g a)).sum = (l.map f).sum + (l.map g).sum := by
  induction l with
  | nil => simp
  | cons a rest ih => simp [List.sum_cons, ih]; omega

theorem sum_ite_filter_length {α : Type} (l : List α) (p : α → Prop) [DecidablePred p] :
    (l.map (fun a => if p a then 1 else 0)).sum = (l.filter (fun a => decide (p a))).length := by
  induction l with
  | nil => simp
  | cons a rest ih =>
    by_cases h : p a <;> simp [List.filter_cons, h, ih] <;> omega

theorem sum_map_const {α : Type} (l : List α) (c : Nat) :
    (l.map (fun _ => c)).sum = l.length * c := by
  induction l with
  | nil => simp
  | cons a rest ih => simp [List.sum_cons, ih, Nat.succ_mul]; omega

/-! ## Claim C7: defaulted field reads of the AIDetection component -/

/-- Claim C7: the AIDetection component is total over payloads: a null
payload renders the no-data branch, a missing `ai_percentage` is read as
`0`, a missing `human_percentage` as `100` minus the AI percentage, and a
missing `confidence` as `low`. -/
theorem claim_C7 :
    AIDetection none = none
    ∧ (∀ d : AIData, d.ai_percentage = none → (render d).aiPercentage = 0)
    ∧ (∀ d : AIData, d.human_percentage = none →
        (render d).humanPercentage = 100 - (render d).aiPercentage)
    ∧ (∀ d : AIData, d.confidence = none → (render d).confidence = "low") := by
  refine ⟨rfl, ?_, ?_, ?_⟩
  · intro d h; simp [render, jsOrNum, h]
  · intro d h; simp [render, jsOrNum, h]
  · intro d h; simp [render, jsOrStr, h]

/-- Witness for C7 at the concrete all-absent payload. -/
theorem claim_C7_witness :
    (render ⟨none, none, none⟩).aiPercentage = 0
    ∧ (render ⟨none, none, none⟩).humanPercentage = 100 - (render ⟨none, none, none⟩).aiPercentage
    ∧ (render ⟨none, none, none⟩).confidence = "low" :=
  ⟨claim_C7.2.1 ⟨none, none, none⟩ rfl, claim_C7.2.2.1 ⟨none, none, none⟩ rfl,
    claim_C7.2.2.2 ⟨none, none, none⟩ rfl⟩

/-! ## Claims C5 and C10: the two countFiles functions -/

mutual

theorem countFilesR_eq : (n : FNode) → countFilesR (some n) = countFiles n
  | .mk nm t cs => by
    cases cs with
    | none => simp [countFilesR, countFiles]
    | some l =>
      by_cases h : t = "file"
      · simp [countFilesR, countFiles, h]
      · simp [countFilesR, countFiles, h, countFilesRGo_eq l]
termination_by n => sizeOf n

theorem countFilesRGo_eq : (l : List FNode) → ∀ acc, countFilesRGo l acc = countFilesGo l acc
  | [] => by intro acc; simp [countFilesRGo, countFilesGo]
  | c :: rest => by
    intro acc
    rw [countFilesRGo, countFilesGo, countFilesR_eq c, countFilesRGo_eq rest]
termination_by l => sizeOf l + 1

end

/-- Claim C10: for every non-null tree node the countFiles of the Report
component agrees with the countFiles of the FileTree component, and the
Report version maps a null input to zero counts. -/
theorem claim_C10 :
    (∀ n : FNode, countFilesR (some n) = countFiles n) ∧ countFilesR none = (0, 0) := by
  exact ⟨fun n => countFilesR_eq n, by simp [countFilesR]⟩

mutual

theorem countFiles_spec : (n : FNode) → wfTree n = true →
    countFiles n = (numFiles n, numFolders n)
  | .mk nm t cs => by
    intro hwf
    by_cases h : t = "file"
    · subst h
      have hcs : cs = none ∨ cs = some [] := by
        simp only [wfTree, Bool.and_eq_true] at hwf
        cases cs with
        | none => exact Or.inl rfl
        | some l =>
          cases l with
          | nil => exact Or.inr rfl
          | cons c crest => simp [noChildren] at hwf
      rcases hcs with h2 | h2 <;> subst h2 <;>
        simp [countFiles, numFiles, numFolders, numFilesGo, numFoldersGo]
    · have hgo : wfTreeGo cs = true := by
        simp only [wfTree, Bool.and_eq_true] at hwf
        exact hwf.2
      cases cs with
      | none => simp [countFiles, numFiles, numFolders, numFilesGo, numFoldersGo, h]
      | some l =>
        have := countFilesGo_spec l (0, 1) hgo
        simp [countFiles, numFiles, numFolders, h, this]
termination_by n => sizeOf n

theorem countFilesGo_spec : (l : List FNode) → ∀ acc, wfTreeGo (some l) = true →
    countFilesGo l acc = (acc.1 + numFilesGo (some l), acc.2 + numFoldersGo (some l))
  | [] => by intro acc h; simp [countFilesGo, numFilesGo, numFoldersGo]
  | c :: rest => by
    intro acc h
    simp only [wfTreeGo, Bool.and_eq_true] at h
    obtain ⟨h1, h2⟩ := h
    rw [countFilesGo, countFiles_spec c h1, countFilesGo_spec rest _ h2]
    simp [numFilesGo, numFoldersGo]
    omega
termination_by l => sizeOf l + 1

end

/-- Claim C5: on every wellformed file-tree node (files carry no
children, per the data model), the FileTree countFiles returns the number
of nodes of type `file` in the subtree paired with the number of nodes of
any other type.  The function is pure, so repeated evaluation on the same
tree trivially returns the same pair. -/
theorem claim_C5 (n : FNode) (hwf : wfTree n = true) :
    countFiles n = (numFiles n, numFolders n) :=
  countFiles_spec n hwf

/-- Witness for C5 on the sample tree. -/
theorem claim_C5_witness :
    wfTree sampleTree = true ∧ countFiles sampleTree = (numFiles sampleTree, numFolders sampleTree) := by
  have hwf : wfTree sampleTree = true := by
    simp [sampleTree, wfTree, wfTreeGo, noChildren]
  exact ⟨hwf, claim_C5 sampleTree hwf⟩

/-! ## Lemmas about the URL matcher -/

theorem dropLit_sound : ∀ (lit cs rest : List Char), dropLit lit cs = some rest → cs = lit ++ rest
  | [], cs, rest => by
    intro h
    simp only [dropLit, Option.some.injEq] at h
    simpa using h
  | l :: ls, [], rest => by
    intro h
    simp [dropLit] at h
  | l :: ls, c :: cs, rest => by
    intro h
    simp only [dropLit] at h
    by_cases hc : c = l
    · rw [if_pos hc] at h
      have := dropLit_sound ls cs rest h
      subst hc
      simp [this]
    · rw [if_neg hc] at h
      exact absurd h (by simp)

theorem dropLit_append : ∀ (lit cs : List Char), dropLit lit (lit ++ cs) = some cs
  | [], cs => rfl
  | l :: ls, cs => by simp [dropLit, dropLit_append ls cs]

theorem schemeRest_decomp (cs : List Char) : cs = schemeRest cs ∨ cs = 's' :: schemeRest cs := by
  unfold schemeRest
  split
  · right; rfl
  · left; rfl

theorem matchRepoUrl_decomp (cs : List Char) (h : matchRepoUrl cs = true) :
    ∃ tl o r, (tl = [] ∨ tl = ['s'])
      ∧ cs = httpLit ++ tl ++ hostLit ++ o ++ '/' :: r
      ∧ o ≠ [] ∧ (∀ c ∈ o, ownerChar c = true)
      ∧ r ≠ [] ∧ (∀ c ∈ r, repoChar c = true) := by
  unfold matchRepoUrl at h
  split at h
  · simp at h
  · rename_i cs1 heq1
    split at h
    · simp at h
    · rename_i cs2 heq2
      split at h
      · rename_i r heqr
        simp only [Bool.and_eq_true, decide_eq_true_eq] at h
        obtain ⟨ho, hr, hall⟩ := h
        have hcs : cs = httpLit ++ cs1 := dropLit_sound _ _ _ heq1
        have hcs1 : schemeRest cs1 = hostLit ++ cs2 := dropLit_sound _ _ _ heq2
        have hcs2 : cs2 = cs2.takeWhile ownerChar ++ '/' :: r := by
          conv_lhs => rw [← List.takeWhile_append_dropWhile ownerChar cs2]
          rw [heqr]
        have hoc : ∀ c ∈ cs2.takeWhile ownerChar, ownerChar c = true :=
          fun c hc => List.mem_takeWhile_imp hc
        have hrc : ∀ c ∈ r, repoChar c = true := by
          intro c hc
          exact List.all_eq_true.mp hall c hc
        rcases schemeRest_decomp cs1 with hs | hs
        · refine ⟨[], cs2.takeWhile ownerChar, r, Or.inl rfl, ?_, ho, hoc, hr, hrc⟩
          rw [hcs, hs, hcs1]
          conv_lhs => rw [hcs2]
          simp
        · refine ⟨['s'], cs2.takeWhile ownerChar, r, Or.inr rfl, ?_, ho, hoc, hr, hrc⟩
          rw [hcs, hs, hcs1]
          conv_lhs => rw [hcs2]
          simp
      · simp at h

theorem ownerChar_safe (c : Char) (h : ownerChar c = true) : safeChar c = true := by
  simp only [ownerChar, Bool.or_eq_true, decide_eq_true_eq] at h
  simp only [safeChar, Bool.or_eq_true, decide_eq_true_eq]
  tauto

theorem repoChar_safe (c : Char) (h : repoChar c = true) : safeChar c = true := by
  simp only [repoChar, Bool.or_eq_true, decide_eq_true_eq] at h
  rcases h with h | h
  · exact ownerChar_safe c h
  · simp only [safeChar, Bool.or_eq_true, decide_eq_true_eq]
    tauto

theorem dropWhile_idem {α : Type} (p : α → Bool) (l : List α) :
    List.dropWhile p (List.dropWhile p l) = List.dropWhile p l := by
  induction l with
  | nil => rfl
  | cons c rest ih =>
    by_cases h : p c
    · simp [List.dropWhile_cons, h, ih]
    · simp [List.dropWhile_cons, h]

theorem dropWhile_length_le {α : Type} (p : α → Bool) (l : List α) :
    (List.dropWhile p l).length ≤ l.length := by
  induction l with
  | nil => simp
  | cons c rest ih =>
    by_cases h : p c
    · simp only [List.dropWhile_cons, if_pos h]
      exact Nat.le_trans ih (Nat.le_succ _)
    · simp [List.dropWhile_cons, if_neg h]

theorem dropWhile_eq_self_of_pfx {α : Type} (p : α → Bool) {v u : List α}
    (hpre : v <+: u) (hu : List.dropWhile p u = u) : List.dropWhile p v = v := by
  cases v with
  | nil => rfl
  | cons a t =>
    obtain ⟨rest, hrest⟩ := hpre
    by_cases h : p a
    · exfalso
      rw [← hrest, List.cons_append, List.dropWhile_cons, if_pos h] at hu
      have hle := dropWhile_length_le p (t ++ rest)
      have hlen := congrArg List.length hu
      simp only [List.length_cons, List.length_append] at hlen
      simp only [List.length_append] at hle
      omega
    · simp [List.dropWhile_cons, h]

theorem jsTrim_pfx (cs : List Char) : jsTrim cs <+: List.dropWhile Char.isWhitespace cs := by
  unfold jsTrim
  conv_rhs => rw [← List.reverse_reverse (List.dropWhile Char.isWhitespace cs)]
  rw [List.reverse_prefix]
  exact ⟨List.takeWhile Char.isWhitespace (List.dropWhile Char.isWhitespace cs).reverse,
    List.takeWhile_append_dropWhile _ _⟩

theorem jsTrim_idem (cs : List Char) : jsTrim (jsTrim cs) = jsTrim cs := by
  have hA : List.dropWhile Char.isWhitespace (jsTrim cs) = jsTrim cs :=
    dropWhile_eq_self_of_pfx _ (jsTrim_pfx cs) (dropWhile_idem _ cs)
  have hB : (jsTrim cs).reverse
      = List.dropWhile Char.isWhitespace (List.dropWhile Char.isWhitespace cs).reverse := by
    unfold jsTrim
    rw [List.reverse_reverse]
  show ((List.dropWhile Char.isWhitespace (jsTrim cs)).reverse.dropWhile
      Char.isWhitespace).reverse = jsTrim cs
  rw [hA, hB, dropWhile_idem, ← hB, List.reverse_reverse]

theorem validateRepoFormat_trim (s : String) :
    validateRepoFormat (jsTrimS s) = validateRepoFormat s := by
  show matchRepoUrl (jsTrim (String.mk (jsTrim s.toList)).toList) = matchRepoUrl (jsTrim s.toList)
  rw [show (String.mk (jsTrim s.toList)).toList = jsTrim s.toList from rfl, jsTrim_idem]

/-! ## Claim C1: what the URL validation accepts and rejects -/

/-- Claim C1 counterexample: a path-traversal segment is accepted as the
repository component, because the repository character class contains the
dot. -/
theorem claim_C1_counterexample : validateRepoFormat "https://github.com/a/.." = true := by
  decide

/-- Claim C1 (amended): every string accepted by `validateRepoFormat`
decomposes, after trimming, into `http` or `https`, the literal host
`github.com`, a nonempty owner segment over `[a-zA-Z0-9_-]` (hence never
containing a dot, so `..` cannot be the owner), and a nonempty repository
segment over `[a-zA-Z0-9_.-]`; every character of the accepted string lies
in a set disjoint from the shell metacharacters, and the spec example
`https://github.com/../../etc/passwd` is rejected.  The claim fails only
in that `..` is accepted as the repository segment (see the
counterexample). -/
theorem claim_C1 :
    validateRepoFormat "https://github.com/../../etc/passwd" = false
    ∧ ∀ s : String, validateRepoFormat s = true →
      ∃ tl o r, (tl = [] ∨ tl = ['s'])
        ∧ jsTrim s.toList = httpLit ++ tl ++ hostLit ++ o ++ '/' :: r
        ∧ o ≠ [] ∧ (∀ c ∈ o, ownerChar c = true) ∧ '.' ∉ o
        ∧ r ≠ [] ∧ (∀ c ∈ r, repoChar c = true)
        ∧ ∀ c ∈ jsTrim s.toList, safeChar c = true := by
  constructor
  · decide
  · intro s hs
    obtain ⟨tl, o, r, htl, heq, ho, hoc, hr, hrc⟩ := matchRepoUrl_decomp _ hs
    have hdot : '.' ∉ o := by
      intro hdot
      have := hoc '.' hdot
      simp [ownerChar] at this
    refine ⟨tl, o, r, htl, heq, ho, hoc, hdot, hr, hrc, ?_⟩
    intro c hc
    rw [heq] at hc
    simp only [List.append_assoc, List.mem_append, List.mem_cons] at hc
    have hhttp : ∀ x ∈ httpLit, safeChar x = true := by decide
    have hhost : ∀ x ∈ hostLit, safeChar x = true := by decide
    rcases hc with h | h | h | h | h | h
    · exact hhttp c h
    · rcases htl with h2 | h2 <;> subst h2
      · simp at h
      · simp only [List.mem_singleton] at h
        subst h
        decide
    · exact hhost c h
    · exact ownerChar_safe c (hoc c h)
    · subst h
      decide
    · exact repoChar_safe c (hrc c h)

/-- Witness for C1 on an accepted URL. -/
theorem claim_C1_witness :
    validateRepoFormat "https://github.com/user/repo.git" = true
    ∧ ∃ tl o r, (tl = [] ∨ tl = ['s'])
      ∧ jsTrim "https://github.com/user/repo.git".toList = httpLit ++ tl ++ hostLit ++ o ++ '/' :: r
      ∧ o ≠ [] ∧ (∀ c ∈ o, ownerChar c = true) ∧ '.' ∉ o
      ∧ r ≠ [] ∧ (∀ c ∈ r, repoChar c = true)
      ∧ ∀ c ∈ jsTrim "https://github.com/user/repo.git".toList, safeChar c = true :=
  ⟨by decide, claim_C1.2 "https://github.com/user/repo.git" (by decide)⟩

/-! ## Claim C6: rejection of non-http schemes before any network call -/

/-- Claim C6: when the trimmed URL starts with neither `http://` nor
`https://` (in particular when its scheme is not `http` or `https`),
`validateRepoFormat` returns `false`, and `analyzeRepo` sets an error
message and never reaches the network request. -/
theorem claim_C6 (s : String)
    (h1 : dropLit ['h', 't', 't', 'p', ':', '/', '/'] (jsTrim s.toList) = none)
    (h2 : dropLit ['h', 't', 't', 'p', 's', ':', '/', '/'] (jsTrim s.toList) = none) :
    validateRepoFormat s = false
    ∧ (analyzeRepo s).error.isSome = true
    ∧ (analyzeRepo s).requested = false := by
  have hv : validateRepoFormat s = false := by
    cases hvb : validateRepoFormat s
    · rfl
    · exfalso
      obtain ⟨tl, o, r, htl, heq, _, _, _, _⟩ := matchRepoUrl_decomp _ hvb
      rcases htl with h | h <;> subst h
      · have heq2 : jsTrim s.toList
            = ['h', 't', 't', 'p', ':', '/', '/']
              ++ (['g', 'i', 't', 'h', 'u', 'b', '.', 'c', 'o', 'm', '/'] ++ (o ++ '/' :: r)) := by
          rw [heq]
          simp [httpLit, hostLit]
        rw [heq2, dropLit_append] at h1
        exact Option.noConfusion h1
      · have heq2 : jsTrim s.toList
            = ['h', 't', 't', 'p', 's', ':', '/', '/']
              ++ (['g', 'i', 't', 'h', 'u', 'b', '.', 'c', 'o', 'm', '/'] ++ (o ++ '/' :: r)) := by
          rw [heq]
          simp [httpLit, hostLit]
        rw [heq2, dropLit_append] at h2
        exact Option.noConfusion h2
  refine ⟨hv, ?_, ?_⟩ <;>
  · simp only [analyzeRepo]
    by_cases he : jsTrimS s = ""
    · simp [he]
    · have hv2 : validateRepoFormat (jsTrimS s) = false := by
        rw [validateRepoFormat_trim]
        exact hv
      rw [if_neg he, if_pos hv2]
      try rfl

/-- Witness for C6 on a concrete rejected scheme. -/
theorem claim_C6_witness :
    validateRepoFormat "ftp://github.com/x/y" = false
    ∧ (analyzeRepo "ftp://github.com/x/y").error.isSome = true
    ∧ (analyzeRepo "ftp://github.com/x/y").requested = false :=
  claim_C6 "ftp://github.com/x/y" (by decide) (by decide)

/-! ## Lemmas about the backend branch of processedData -/

theorem pushImport_map_file (sf : Option String) (t : String) (l : List PNode) :
    (pushImport sf t l).map PNode.file = l.map PNode.file := by
  induction l with
  | nil => rfl
  | cons n rest ih =>
    by_cases h : n.file = sf
    · simp [pushImport, h]
    · simp [pushImport, h, ih]

theorem backend_fold_files (ns : List NodeIn) (es : List EdgeIn) :
    ∀ st : List PNode × List PEdge × List (String × Nat),
      (es.foldl (edgeStep ns) st).1.map PNode.file = st.1.map PNode.file := by
  induction es with
  | nil => intro st; rfl
  | cons e rest ih =>
    intro st
    rw [List.foldl_cons, ih]
    show (edgeStep ns st e).1.map PNode.file = st.1.map PNode.file
    simp only [edgeStep]
    cases h : nodeMapLookup ns e.target with
    | none => rfl
    | some t =>
      by_cases ht : t = ""
      · simp [ht]
      · simp [ht, pushImport_map_file]

theorem backend_nodes_files (ns : List NodeIn) (es : List EdgeIn) :
    (processedBackendCore ns es).nodes.map PNode.file = ns.map jsFile := by
  show (es.foldl (edgeStep ns) (ns.map mkPNode, [], [])).1.map PNode.file = ns.map jsFile
  rw [backend_fold_files]
  simp [mkPNode, List.map_map]

theorem backend_fold_edges (ns : List NodeIn) (es : List EdgeIn) :
    ∀ st : List PNode × List PEdge × List (String × Nat),
      (es.foldl (edgeStep ns) st).2.1 = st.2.1 ++ es.map (edgeOf ns) := by
  induction es with
  | nil => intro st; simp
  | cons e rest ih =>
    intro st
    rw [List.foldl_cons, ih]
    show (edgeStep ns st e).2.1 ++ _ = _
    simp [edgeStep, edgeOf, List.append_assoc]

theorem processedBackendCore_edges (ns : List NodeIn) (es : List EdgeIn) :
    (processedBackendCore ns es).edges = es.map (edgeOf ns) := by
  show (es.foldl (edgeStep ns) (ns.map mkPNode, [], [])).2.1 = _
  rw [backend_fold_edges]
  rfl

theorem backend_fold_counts (ns : List NodeIn) (es : List EdgeIn) :
    ∀ (st : List PNode × List PEdge × List (String × Nat)) (q : String),
      lookupCount (es.foldl (edgeStep ns) st).2.2 q
        = lookupCount st.2.2 q + ((es.map (edgeOf ns)).map (wkey q)).sum := by
  induction es with
  | nil => intro st q; simp
  | cons e rest ih =>
    intro st q
    rw [List.foldl_cons, ih]
    have hstep : lookupCount (edgeStep ns st e).2.2 q
        = lookupCount st.2.2 q + wkey q (edgeOf ns e) := by
      show lookupCount (jsAddCount (jsAddCount st.2.2 (jsKey (nodeMapLookup ns e.source)) 1)
        (jsKey (nodeMapLookup ns e.target)) 1) q = _
      rw [lookupCount_jsAddCount, lookupCount_jsAddCount]
      simp only [wkey, edgeOf]
      omega
    rw [hstep, List.map_cons, List.map_cons, List.sum_cons]
    omega

theorem processedBackendCore_counts (ns : List NodeIn) (es : List EdgeIn) (q : String) :
    lookupCount (processedBackendCore ns es).connectionCounts q
      = ((es.map (edgeOf ns)).map (wkey q)).sum := by
  show lookupCount (es.foldl (edgeStep ns) (ns.map mkPNode, [], [])).2.2 q = _
  rw [backend_fold_counts]
  simp [lookupCount]

theorem buildByType_lookup (nodes : List PNode) (q : String) :
    lookupCount (buildByType nodes) q
      = (nodes.map (fun n => if q = extKey (n.file.getD "") then 1 else 0)).sum := by
  suffices h : ∀ m, lookupCount
      (nodes.foldl (fun m n => jsAddCount m (extKey (n.file.getD "")) 1) m) q
      = lookupCount m q + (nodes.map fun n => if q = extKey (n.file.getD "") then 1 else 0).sum by
    simpa [buildByType, lookupCount] using h []
  induction nodes with
  | nil => intro m; simp
  | cons n rest ih =>
    intro m
    rw [List.foldl_cons, ih, lookupCount_jsAddCount, List.map_cons, List.sum_cons]
    omega

theorem buildByType_sum (nodes : List PNode) :
    ((buildByType nodes).map Prod.snd).sum = nodes.length := by
  suffices h : ∀ m, (((nodes.foldl (fun m n => jsAddCount m (extKey (n.file.getD "")) 1) m)).map
      Prod.snd).sum = (m.map Prod.snd).sum + nodes.length by
    simpa [buildByType] using h []
  induction nodes with
  | nil => intro m; simp
  | cons n rest ih =>
    intro m
    rw [List.foldl_cons, ih, sum_snd_jsAddCount, List.length_cons]
    omega

theorem nodeMapLookup_acc_no_match (ns : List NodeIn) (i : Nat) :
    ∀ acc, (∀ n ∈ ns, n.id ≠ i) →
      ns.foldl (fun acc n => if n.id = i then jsFile n else acc) acc = acc := by
  induction ns with
  | nil => intro acc _; rfl
  | cons n rest ih =>
    intro acc h
    rw [List.foldl_cons, if_neg (h n (List.mem_cons_self n rest))]
    exact ih acc (fun m hm => h m (List.mem_cons_of_mem n hm))

theorem nodeMapLookup_exists : ∀ (ns : List NodeIn) (i : Nat) (acc : Option String),
    (∃ n ∈ ns, n.id = i) →
    ∃ m ∈ ns, m.id = i ∧ ns.foldl (fun acc n => if n.id = i then jsFile n else acc) acc = jsFile m
  | [], i, acc => by rintro ⟨n, h, _⟩; cases h
  | n :: rest, i, acc => by
    intro hex
    rw [List.foldl_cons]
    by_cases hrest : ∃ m ∈ rest, m.id = i
    · obtain ⟨m, hm, hid2, heq⟩ := nodeMapLookup_exists rest i _ hrest
      exact ⟨m, List.mem_cons_of_mem n hm, hid2, heq⟩
    · have hn : n.id = i := by
        obtain ⟨m, hm, hid2⟩ := hex
        rcases List.mem_cons.mp hm with h | h
        · subst h; exact hid2
        · exact absurd ⟨m, h, hid2⟩ hrest
      rw [if_pos hn]
      refine ⟨n, List.mem_cons_self n rest, hn, ?_⟩
      exact nodeMapLookup_acc_no_match rest i _ (fun m hm hmi => hrest ⟨m, hm, hmi⟩)

theorem nodeMapLookup_mem (ns : List NodeIn) (i : Nat) (hex : ∃ n ∈ ns, n.id = i) :
    ∃ m ∈ ns, m.id = i ∧ nodeMapLookup ns i = jsFile m :=
  nodeMapLookup_exists ns i none hex

theorem nodeMapLookup_nodup (ns : List NodeIn) (i : Nat) (n₀ : NodeIn)
    (hid : (ns.map NodeIn.id).Nodup) (hmem : n₀ ∈ ns) (heq : n₀.id = i) :
    nodeMapLookup ns i = jsFile n₀ := by
  induction ns with
  | nil => cases hmem
  | cons n rest ih =>
    show List.foldl (fun acc m => if m.id = i then jsFile m else acc)
      (if n.id = i then jsFile n else none) rest = jsFile n₀
    simp only [List.map_cons, List.nodup_cons] at hid
    obtain ⟨hnotin, hrest⟩ := hid
    rcases List.mem_cons.mp hmem with h | h
    · subst h
      rw [if_pos heq]
      apply nodeMapLookup_acc_no_match
      intro m hm hmi
      exact hnotin (List.mem_map.mpr ⟨m, hm, hmi.trans heq.symm⟩)
    · have hni : ¬ n.id = i := by
        intro hn
        exact hnotin (List.mem_map.mpr ⟨n₀, h, heq.trans hn.symm⟩)
      rw [if_neg hni]
      exact ih hrest h

theorem ite_endpoint (f a : String) :
    (if f = a then (1 : Nat) else 0) = (if some a = some f then 1 else 0) := by
  by_cases h : f = a
  · subst h; simp
  · rw [if_neg h, if_neg (fun hh : some a = some f => h (Option.some.inj hh).symm)]

theorem wkey_of_some (f : String) (pe : PEdge) {a b : String}
    (ha : pe.efrom = some a) (hb : pe.eto = some b) :
    wkey f pe = (if pe.eto = some f then 1 else 0) + (if pe.efrom = some f then 1 else 0) := by
  simp only [wkey]
  rw [ha, hb]
  simp only [jsKey]
  rw [ite_endpoint f a, ite_endpoint f b]
  omega

/-! ## Claim C4: one processed edge per input edge, duplicates preserved -/

/-- Claim C4: the processed edge list has exactly one entry per input edge
(the push is unconditional, so duplicate edges between the same pair are
preserved and never deduplicated), hence the displayed connection count
`processedData.edges.length` equals the number of input edges. -/
theorem claim_C4 (ns : List NodeIn) (es : List EdgeIn)
    (hw : ∀ n ∈ ns, (jsFile n).isSome = true) :
    processedBackend ns es = some (processedBackendCore ns es)
    ∧ (processedBackendCore ns es).edges.length = es.length := by
  constructor
  · unfold processedBackend
    rw [if_pos (List.all_eq_true.mpr hw)]
  · rw [processedBackendCore_edges]
    simp

/-- Witness for C4 on the sample graph with a duplicated edge. -/
theorem claim_C4_witness :
    processedBackend sampleNodes sampleEdges = some (processedBackendCore sampleNodes sampleEdges)
    ∧ (processedBackendCore sampleNodes sampleEdges).edges.length = sampleEdges.length :=
  claim_C4 sampleNodes sampleEdges (by decide)

/-! ## Claim C2: dangling edges -/

/-- Claim C2 counterexample: an edge whose target id resolves to no node
is still pushed, producing an edge whose `to` endpoint is not the file of
any node of the same graph. -/
theorem claim_C2_counterexample :
    ¬ ∀ pe ∈ (processedBackendCore [⟨1, some "a.js", none, none⟩] [⟨1, 2⟩]).edges,
      (∃ n ∈ (processedBackendCore [⟨1, some "a.js", none, none⟩] [⟨1, 2⟩]).nodes,
        n.file = pe.efrom)
      ∧ (∃ n ∈ (processedBackendCore [⟨1, some "a.js", none, none⟩] [⟨1, 2⟩]).nodes,
        n.file = pe.eto) := by
  decide

/-- Claim C2 (amended): when every edge references source and target ids
present among the nodes, every processed edge has both endpoints equal to
the file of some processed node.  The unconditional `edges.push` makes the
original claim fail for unresolvable ids (see the counterexample). -/
theorem claim_C2 (ns : List NodeIn) (es : List EdgeIn)
    (hw : ∀ n ∈ ns, (jsFile n).isSome = true)
    (hsrc : ∀ e ∈ es, ∃ n ∈ ns, n.id = e.source)
    (htgt : ∀ e ∈ es, ∃ n ∈ ns, n.id = e.target) :
    processedBackend ns es = some (processedBackendCore ns es)
    ∧ ∀ pe ∈ (processedBackendCore ns es).edges,
      (∃ n ∈ (processedBackendCore ns es).nodes, n.file = pe.efrom)
      ∧ (∃ n ∈ (processedBackendCore ns es).nodes, n.file = pe.eto) := by
  have hnode : ∀ m ∈ ns, ∃ pn ∈ (processedBackendCore ns es).nodes, pn.file = jsFile m := by
    intro m hm
    have hfile : jsFile m ∈ (processedBackendCore ns es).nodes.map PNode.file := by
      rw [backend_nodes_files]
      exact List.mem_map_of_mem jsFile hm
    obtain ⟨pn, hpn, hpnf⟩ := List.mem_map.mp hfile
    exact ⟨pn, hpn, hpnf⟩
  refine ⟨?_, ?_⟩
  · unfold processedBackend
    rw [if_pos (List.all_eq_true.mpr hw)]
  · intro pe hpe
    rw [processedBackendCore_edges] at hpe
    obtain ⟨e, he, rfl⟩ := List.mem_map.mp hpe
    constructor
    · obtain ⟨m, hm, _, hlook⟩ := nodeMapLookup_mem ns e.source (hsrc e he)
      obtain ⟨pn, hpn, hpnf⟩ := hnode m hm
      exact ⟨pn, hpn, hpnf.trans hlook.symm⟩
    · obtain ⟨m, hm, _, hlook⟩ := nodeMapLookup_mem ns e.target (htgt e he)
      obtain ⟨pn, hpn, hpnf⟩ := hnode m hm
      exact ⟨pn, hpn, hpnf.trans hlook.symm⟩

/-- Witness for the amended C2 on the sample graph. -/
theorem claim_C2_witness :
    processedBackend sampleNodes sampleEdges = some (processedBackendCore sampleNodes sampleEdges)
    ∧ ∀ pe ∈ (processedBackendCore sampleNodes sampleEdges).edges,
      (∃ n ∈ (processedBackendCore sampleNodes sampleEdges).nodes, n.file = pe.efrom)
      ∧ (∃ n ∈ (processedBackendCore sampleNodes sampleEdges).nodes, n.file = pe.eto) :=
  claim_C2 sampleNodes sampleEdges (by decide) (by decide) (by decide)

/-! ## Claim C3: connection counts and the byType histogram -/

/-- Claim C3: with every edge id resolvable among the nodes, the
connection count stored under each file equals the number of processed
edges entering it (in-degree) plus the number leaving it (out-degree),
and the byType histogram counts each node exactly once under its
extension key (`.other` when the file has no extension), so its values
sum to the number of nodes. -/
theorem claim_C3 (ns : List NodeIn) (es : List EdgeIn)
    (hw : ∀ n ∈ ns, (jsFile n).isSome = true)
    (hsrc : ∀ e ∈ es, ∃ n ∈ ns, n.id = e.source)
    (htgt : ∀ e ∈ es, ∃ n ∈ ns, n.id = e.target) :
    processedBackend ns es = some (processedBackendCore ns es)
    ∧ (∀ f : String,
        lookupCount (processedBackendCore ns es).connectionCounts f
          = ((processedBackendCore ns es).edges.filter
              (fun pe => decide (pe.eto = some f))).length
            + ((processedBackendCore ns es).edges.filter
              (fun pe => decide (pe.efrom = some f))).length)
    ∧ (∀ k : String,
        lookupCount (processedBackendCore ns es).byType k
          = (ns.filter (fun n => decide (k = extKey (fileD n)))).length)
    ∧ ((processedBackendCore ns es).byType.map Prod.snd).sum
        = (processedBackendCore ns es).nodes.length := by
  refine ⟨?_, ?_, ?_, ?_⟩
  · unfold processedBackend
    rw [if_pos (List.all_eq_true.mpr hw)]
  · intro f
    rw [processedBackendCore_counts, processedBackendCore_edges]
    have hcong : (es.map (edgeOf ns)).map (wkey f)
        = (es.map (edgeOf ns)).map (fun pe =>
            (if pe.eto = some f then 1 else 0) + (if pe.efrom = some f then 1 else 0)) := by
      apply List.map_congr_left
      intro pe hpe
      obtain ⟨e, he, rfl⟩ := List.mem_map.mp hpe
      obtain ⟨m1, hm1, _, hl1⟩ := nodeMapLookup_mem ns e.source (hsrc e he)
      obtain ⟨a, ha⟩ := Option.isSome_iff_exists.mp (hw m1 hm1)
      obtain ⟨m2, hm2, _, hl2⟩ := nodeMapLookup_mem ns e.target (htgt e he)
      obtain ⟨b, hb⟩ := Option.isSome_iff_exists.mp (hw m2 hm2)
      exact wkey_of_some f _ (show nodeMapLookup ns e.source = some a from hl1.trans ha)
        (show nodeMapLookup ns e.target = some b from hl2.trans hb)
    rw [hcong, sum_map_add]
    rw [sum_ite_filter_length (es.map (edgeOf ns)) (fun pe => pe.eto = some f)]
    rw [sum_ite_filter_length (es.map (edgeOf ns)) (fun pe => pe.efrom = some f)]
  · intro k
    show lookupCount (buildByType (processedBackendCore ns es).nodes) k = _
    rw [buildByType_lookup]
    have hmm : ((processedBackendCore ns es).nodes.map
          (fun n => if k = extKey (n.file.getD "") then (1 : Nat) else 0))
        = (ns.map (fun n => if k = extKey (fileD n) then (1 : Nat) else 0)) := by
      have h1 : ((processedBackendCore ns es).nodes.map
            (fun n => if k = extKey (n.file.getD "") then (1 : Nat) else 0))
          = ((processedBackendCore ns es).nodes.map PNode.file).map
            (fun o => if k = extKey (o.getD "") then (1 : Nat) else 0) :=
        (List.map_map (fun o : Option String => if k = extKey (o.getD "") then (1 : Nat) else 0)
          PNode.file (processedBackendCore ns es).nodes).symm
      rw [h1, backend_nodes_files, List.map_map]
      rfl
    rw [hmm, sum_ite_filter_length ns (fun n => k = extKey (fileD n))]
  · show ((buildByType (processedBackendCore ns es).nodes).map Prod.snd).sum = _
    rw [buildByType_sum]

/-- Witness for C3 on the sample graph at a concrete file and key. -/
theorem claim_C3_witness :
    processedBackend sampleNodes sampleEdges = some (processedBackendCore sampleNodes sampleEdges)
    ∧ lookupCount (processedBackendCore sampleNodes sampleEdges).connectionCounts "src/a.py"
        = ((processedBackendCore sampleNodes sampleEdges).edges.filter
            (fun pe => decide (pe.eto = some "src/a.py"))).length
          + ((processedBackendCore sampleNodes sampleEdges).edges.filter
            (fun pe => decide (pe.efrom = some "src/a.py"))).length
    ∧ lookupCount (processedBackendCore sampleNodes sampleEdges).byType ".py"
        = (sampleNodes.filter (fun n => decide (".py" = extKey (fileD n)))).length
    ∧ ((processedBackendCore sampleNodes sampleEdges).byType.map Prod.snd).sum
        = (processedBackendCore sampleNodes sampleEdges).nodes.length := by
  have h := claim_C3 sampleNodes sampleEdges (by decide) (by decide) (by decide)
  exact ⟨h.1, h.2.1 "src/a.py", h.2.2.1 ".py", h.2.2.2⟩

/-! ## Lemmas for the imports invariant (claim C9) -/

theorem findNode_mem : ∀ (l : List PNode) (sf : Option String) (n : PNode),
    findNode l sf = some n → n ∈ l ∧ n.file = sf
  | [], sf, n => by intro h; simp [findNode] at h
  | m :: rest, sf, n => by
    intro h
    simp only [findNode] at h
    by_cases hm : m.file = sf
    · rw [if_pos hm] at h
      obtain rfl := Option.some.inj h
      exact ⟨List.mem_cons_self _ _, hm⟩
    · rw [if_neg hm] at h
      obtain ⟨h1, h2⟩ := findNode_mem rest sf n h
      exact ⟨List.mem_cons_of_mem m h1, h2⟩

theorem findNode_first (l : List PNode) (hP : l.Pairwise RImp) (n : PNode)
    (hn : n ∈ l) (hne : n.imports ≠ []) : findNode l n.file = some n := by
  induction l with
  | nil => cases hn
  | cons m rest ih =>
    rw [List.pairwise_cons] at hP
    obtain ⟨hR, hPrest⟩ := hP
    rcases List.mem_cons.mp hn with h | h
    · subst h
      simp [findNode]
    · by_cases hm : m.file = n.file
      · exact absurd (hR n h hm) hne
      · simp only [findNode]
        rw [if_neg hm]
        exact ih hPrest h

theorem pushImport_mem : ∀ (l : List PNode) (sf : Option String) (t : String) (m : PNode),
    m ∈ pushImport sf t l →
    m ∈ l ∨ ∃ n, n ∈ l ∧ n.file = sf ∧ m = ⟨n.file, n.imports ++ [t], n.nid, n.ntype⟩
  | [], sf, t, m => by intro h; simp [pushImport] at h
  | n :: rest, sf, t, m => by
    intro h
    simp only [pushImport] at h
    by_cases hn : n.file = sf
    · rw [if_pos hn] at h
      rcases List.mem_cons.mp h with h2 | h2
      · exact Or.inr ⟨n, List.mem_cons_self n rest, hn, h2⟩
      · exact Or.inl (List.mem_cons_of_mem n h2)
    · rw [if_neg hn] at h
      rcases List.mem_cons.mp h with h2 | h2
      · subst h2; exact Or.inl (List.mem_cons_self m rest)
      · rcases pushImport_mem rest sf t m h2 with h3 | ⟨q, hq, hqf, hqe⟩
        · exact Or.inl (List.mem_cons_of_mem n h3)
        · exact Or.inr ⟨q, List.mem_cons_of_mem n hq, hqf, hqe⟩

theorem pushImport_pairwise : ∀ (l : List PNode) (sf : Option String) (t : String),
    l.Pairwise RImp → (pushImport sf t l).Pairwise RImp
  | [], sf, t => by intro _; simp [pushImport]
  | n :: rest, sf, t => by
    intro h
    rw [List.pairwise_cons] at h
    obtain ⟨hR, hPrest⟩ := h
    simp only [pushImport]
    by_cases hn : n.file = sf
    · rw [if_pos hn, List.pairwise_cons]
      exact ⟨fun b hb hfeq => hR b hb hfeq, hPrest⟩
    · rw [if_neg hn, List.pairwise_cons]
      refine ⟨?_, pushImport_pairwise rest sf t hPrest⟩
      intro b hb hfeq
      rcases pushImport_mem rest sf t b hb with h2 | ⟨q, hq, hqf, hqe⟩
      · exact hR b h2 hfeq
      · subst hqe
        exact absurd (hfeq.trans hqf) hn

theorem pushImport_no_empty (l : List PNode) (sf : Option String) (t : String)
    (h : ∀ m ∈ l, "" ∉ m.imports) (ht : t ≠ "") :
    ∀ m ∈ pushImport sf t l, "" ∉ m.imports := by
  intro m hm
  rcases pushImport_mem l sf t m hm with h2 | ⟨q, hq, _, hqe⟩
  · exact h m h2
  · subst hqe
    intro hin
    simp only [List.mem_append, List.mem_singleton] at hin
    rcases hin with h3 | h3
    · exact h q hq h3
    · exact ht h3.symm

theorem pairwise_of_empty_imports (l : List PNode) (h : ∀ m ∈ l, m.imports = []) :
    l.Pairwise RImp := by
  induction l with
  | nil => exact List.Pairwise.nil
  | cons n rest ih =>
    rw [List.pairwise_cons]
    exact ⟨fun b hb _ => h b (List.mem_cons_of_mem n hb),
      ih (fun m hm => h m (List.mem_cons_of_mem n hm))⟩

theorem backend_fold_inv (ns : List NodeIn) (es : List EdgeIn) :
    ∀ st : List PNode × List PEdge × List (String × Nat),
      st.1.Pairwise RImp → (∀ m ∈ st.1, "" ∉ m.imports) →
      (es.foldl (edgeStep ns) st).1.Pairwise RImp
        ∧ ∀ m ∈ (es.foldl (edgeStep ns) st).1, "" ∉ m.imports := by
  induction es with
  | nil => intro st h1 h2; exact ⟨h1, h2⟩
  | cons e rest ih =>
    intro st h1 h2
    rw [List.foldl_cons]
    have hstep : (edgeStep ns st e).1.Pairwise RImp
        ∧ ∀ m ∈ (edgeStep ns st e).1, "" ∉ m.imports := by
      simp only [edgeStep]
      cases nodeMapLookup ns e.target with
      | none => exact ⟨h1, h2⟩
      | some t =>
        dsimp only
        by_cases ht : t = ""
        · rw [if_pos ht]
          exact ⟨h1, h2⟩
        · rw [if_neg ht]
          exact ⟨pushImport_pairwise _ _ _ h1, pushImport_no_empty _ _ _ h2 ht⟩
    exact ih _ hstep.1 hstep.2

theorem processedBackendCore_inv (ns : List NodeIn) (es : List EdgeIn) :
    (processedBackendCore ns es).nodes.Pairwise RImp
    ∧ ∀ m ∈ (processedBackendCore ns es).nodes, "" ∉ m.imports := by
  show ((es.foldl (edgeStep ns) (ns.map mkPNode, [], [])).1.Pairwise RImp ∧ _)
  apply backend_fold_inv
  · apply pairwise_of_empty_imports
    intro m hm
    obtain ⟨n, _, rfl⟩ := List.mem_map.mp hm
    rfl
  · intro m hm
    obtain ⟨n, _, rfl⟩ := List.mem_map.mp hm
    simp [mkPNode]

/-! ## Claim C9: Imports and Imported-by are converse views -/

/-- Claim C9 counterexample: a node whose file is the empty string can
hold imports, but the falsy-selected-file guard makes `selectedImports`
return the empty list for it, while `selectedImportedBy` still reports it
on the other side. -/
theorem claim_C9_counterexample :
    ¬ (("b.js" ∈ selectedImports
          (processedBackendCore [⟨1, none, some "", none⟩, ⟨2, some "b.js", none, none⟩]
            [⟨1, 2⟩]).nodes "")
      ↔ (some "" ∈ selectedImportedBy
          (processedBackendCore [⟨1, none, some "", none⟩, ⟨2, some "b.js", none, none⟩]
            [⟨1, 2⟩]).nodes "b.js")) := by
  decide

/-- Claim C9 (amended): over every backend-processed graph and every
nonempty file name `a`, `b` is shown among the Imports of `a` exactly
when `a` is shown among the Imported-by entries of `b`.  The original
claim fails only for the empty-string file name, which the falsy
selected-file guard short-circuits (see the counterexample). -/
theorem claim_C9 (ns : List NodeIn) (es : List EdgeIn)
    (hw : ∀ n ∈ ns, (jsFile n).isSome = true) :
    processedBackend ns es = some (processedBackendCore ns es)
    ∧ ∀ (a b : String), a ≠ "" →
      (b ∈ selectedImports (processedBackendCore ns es).nodes a
        ↔ some a ∈ selectedImportedBy (processedBackendCore ns es).nodes b) := by
  obtain ⟨hP, hNE⟩ := processedBackendCore_inv ns es
  constructor
  · unfold processedBackend
    rw [if_pos (List.all_eq_true.mpr hw)]
  · intro a b ha
    constructor
    · intro hin
      simp only [selectedImports, if_neg ha] at hin
      cases hf : findNode (processedBackendCore ns es).nodes (some a) with
      | none => rw [hf] at hin; cases hin
      | some n =>
        rw [hf] at hin
        obtain ⟨hmem, hfile⟩ := findNode_mem _ _ _ hf
        have hb : b ≠ "" := fun hbe => hNE n hmem (hbe ▸ hin)
        simp only [selectedImportedBy, if_neg hb]
        apply List.mem_map.mpr
        refine ⟨n, ?_, hfile⟩
        apply List.mem_filter.mpr
        exact ⟨hmem, (includesStr_iff _ _).mpr hin⟩
    · intro hin
      have hb : b ≠ "" := by
        intro hbe
        subst hbe
        simp [selectedImportedBy] at hin
      simp only [selectedImportedBy, if_neg hb] at hin
      obtain ⟨n, hnf, hfile⟩ := List.mem_map.mp hin
      obtain ⟨hmem, hpred⟩ := List.mem_filter.mp hnf
      have hbin : b ∈ n.imports := (includesStr_iff _ _).mp hpred
      have hne2 : n.imports ≠ [] := fun hemp => by rw [hemp] at hbin; cases hbin
      have hfind : findNode (processedBackendCore ns es).nodes (some a) = some n := by
        rw [show (some a : Option String) = n.file from hfile.symm]
        exact findNode_first _ hP n hmem hne2
      simp only [selectedImports, if_neg ha, hfind]
      exact hbin

/-- Witness for the amended C9 on the sample graph. -/
theorem claim_C9_witness :
    processedBackend sampleNodes sampleEdges = some (processedBackendCore sampleNodes sampleEdges)
    ∧ ("src/b.py" ∈ selectedImports (processedBackendCore sampleNodes sampleEdges).nodes "src/a.py"
        ↔ some "src/a.py" ∈ selectedImportedBy
            (processedBackendCore sampleNodes sampleEdges).nodes "src/b.py") := by
  have h := claim_C9 sampleNodes sampleEdges (by decide)
  exact ⟨h.1, h.2 "src/a.py" "src/b.py" (by decide)⟩

/-! ## Lemmas about the legacy branch of processedData -/

theorem legacy_inner (f : String) : ∀ (imps : List String) (ec : List PEdge × List (String × Nat)),
    ((imps.foldl (fun ec imp =>
        (ec.1 ++ [(⟨some f, some imp⟩ : PEdge)], jsAddCount ec.2 imp 1)) ec).1
      = ec.1 ++ imps.map (fun imp => ⟨some f, some imp⟩))
    ∧ ∀ q, lookupCount (imps.foldl (fun ec imp =>
        (ec.1 ++ [(⟨some f, some imp⟩ : PEdge)], jsAddCount ec.2 imp 1)) ec).2 q
      = lookupCount ec.2 q + (imps.map (fun imp => if q = imp then 1 else 0)).sum
  | [] => by intro ec; exact ⟨by simp, by intro q; simp⟩
  | imp :: rest => by
    intro ec
    rw [List.foldl_cons]
    constructor
    · rw [(legacy_inner f rest _).1]
      simp [List.append_assoc]
    · intro q
      rw [(legacy_inner f rest _).2 q]
      show lookupCount (jsAddCount ec.2 imp 1) q + _ = _
      rw [lookupCount_jsAddCount, List.map_cons, List.sum_cons]
      omega

theorem legacy_fold_nodes : ∀ (entries : List (String × Option (List String)))
    (st : List PNode × List PEdge × List (String × Nat)),
    (entries.foldl legacyStep st).1
      = st.1 ++ entries.filterMap
          (fun entry => entry.2.map (fun imps => (⟨some entry.1, imps, none, none⟩ : PNode)))
  | [], st => by simp
  | entry :: rest, st => by
    cases hent : entry.2 with
    | none =>
      have hstep : legacyStep st entry = st := by
        simp [legacyStep, hent]
      rw [List.foldl_cons, hstep, legacy_fold_nodes rest, List.filterMap_cons]
      simp [hent]
    | some imps =>
      have hstep : (legacyStep st entry).1 = st.1 ++ [⟨some entry.1, imps, none, none⟩] := by
        simp [legacyStep, hent]
      rw [List.foldl_cons, legacy_fold_nodes rest, hstep, List.filterMap_cons]
      simp [hent, List.append_assoc]

theorem legacy_fold_edges : ∀ (entries : List (String × Option (List String)))
    (st : List PNode × List PEdge × List (String × Nat)),
    (entries.foldl legacyStep st).2.1 = st.2.1 ++ legacyEdgesOf entries
  | [], st => by simp [legacyEdgesOf]
  | entry :: rest, st => by
    cases hent : entry.2 with
    | none =>
      have hstep : legacyStep st entry = st := by
        simp [legacyStep, hent]
      rw [List.foldl_cons, hstep, legacy_fold_edges rest]
      simp [legacyEdgesOf, entryEdges, hent]
    | some imps =>
      have hstep : (legacyStep st entry).2.1
          = st.2.1 ++ imps.map (fun imp => (⟨some entry.1, some imp⟩ : PEdge)) := by
        simp only [legacyStep, hent]
        exact (legacy_inner entry.1 imps _).1
      rw [List.foldl_cons, legacy_fold_edges rest, hstep]
      simp [legacyEdgesOf, entryEdges, hent, List.append_assoc]

theorem legacy_fold_counts : ∀ (entries : List (String × Option (List String)))
    (st : List PNode × List PEdge × List (String × Nat)) (q : String),
    lookupCount (entries.foldl legacyStep st).2.2 q
      = lookupCount st.2.2 q + ((legacyEdgesOf entries).map (wkey q)).sum
  | [], st, q => by simp [legacyEdgesOf]
  | entry :: rest, st, q => by
    cases hent : entry.2 with
    | none =>
      have hstep : legacyStep st entry = st := by
        simp [legacyStep, hent]
      rw [List.foldl_cons, hstep, legacy_fold_counts rest]
      simp [legacyEdgesOf, entryEdges, hent]
    | some imps =>
      have hstep : lookupCount (legacyStep st entry).2.2 q
          = lookupCount st.2.2 q + ((entryEdges entry).map (wkey q)).sum := by
        simp only [legacyStep, hent]
        rw [(legacy_inner entry.1 imps _).2 q]
        show lookupCount (jsAddCount st.2.2 entry.1 imps.length) q + _ = _
        rw [lookupCount_jsAddCount]
        have hE : entryEdges entry = imps.map (fun imp => ⟨some entry.1, some imp⟩) := by
          simp [entryEdges, hent]
        rw [hE, List.map_map]
        have hsum : (imps.map ((wkey q) ∘ (fun imp => (⟨some entry.1, some imp⟩ : PEdge)))).sum
            = (imps.map (fun _ => if q = entry.1 then (1 : Nat) else 0)).sum
              + (imps.map (fun imp => if q = imp then (1 : Nat) else 0)).sum := by
          rw [← sum_map_add]
          refine congrArg List.sum (List.map_congr_left ?_)
          intro imp _
          simp [wkey, jsKey, Function.comp]
        rw [hsum, sum_map_const]
        by_cases hq : q = entry.1 <;> simp [hq] <;> omega
      rw [List.foldl_cons, legacy_fold_counts rest, hstep]
      show _ = lookupCount st.2.2 q + ((legacyEdgesOf (entry :: rest)).map (wkey q)).sum
      rw [show legacyEdgesOf (entry :: rest) = entryEdges entry ++ legacyEdgesOf rest from rfl]
      rw [List.map_append, List.sum_append]
      omega

theorem processedLegacyCore_nodes (entries : List (String × Option (List String))) :
    (processedLegacyCore entries).nodes
      = entries.filterMap
          (fun entry => entry.2.map (fun imps => (⟨some entry.1, imps, none, none⟩ : PNode))) := by
  show (entries.foldl legacyStep ([], [], [])).1 = _
  rw [legacy_fold_nodes]
  rfl

theorem processedLegacyCore_edges (entries : List (String × Option (List String))) :
    (processedLegacyCore entries).edges = legacyEdgesOf entries := by
  show (entries.foldl legacyStep ([], [], [])).2.1 = _
  rw [legacy_fold_edges]
  rfl

theorem processedLegacyCore_counts (entries : List (String × Option (List String))) (q : String) :
    lookupCount (processedLegacyCore entries).connectionCounts q
      = ((legacyEdgesOf entries).map (wkey q)).sum := by
  show lookupCount (entries.foldl legacyStep ([], [], [])).2.2 q = _
  rw [legacy_fold_counts]
  simp [lookupCount]

theorem legacyEdgesOf_eq_flatten : ∀ (entries : List (String × Option (List String))),
    legacyEdgesOf entries = (entries.map entryEdges).flatten
  | [] => rfl
  | entry :: rest => by
    show entryEdges entry ++ legacyEdgesOf rest = _
    rw [legacyEdgesOf_eq_flatten rest, List.map_cons, List.flatten_cons]

/-! ## The permutation between backend edges and their legacy grouping -/

theorem flatten_map_nil {α β : Type} (l : List α) :
    (l.map (fun _ => ([] : List β))).flatten = [] := by
  induction l with
  | nil => rfl
  | cons a rest ih => simp [ih]

theorem flatten_split {α β : Type} (F G : α → List β) (l₁ l₂ : List α) (n₀ : α) (x : β)
    (h₁ : ∀ m ∈ l₁, F m = G m) (h₂ : ∀ m ∈ l₂, F m = G m) (h₀ : F n₀ = x :: G n₀) :
    (((l₁ ++ n₀ :: l₂).map F).flatten).Perm (x :: ((l₁ ++ n₀ :: l₂).map G).flatten) := by
  rw [List.map_append, List.map_cons, List.flatten_append, List.flatten_cons,
    List.map_append, List.map_cons, List.flatten_append, List.flatten_cons,
    List.map_congr_left h₁, List.map_congr_left h₂, h₀]
  have hmid := @List.perm_middle β x ((l₁.map G).flatten) (G n₀ ++ (l₂.map G).flatten)
  simpa [List.append_assoc] using hmid

theorem jsFile_eq_some (n : NodeIn) (h : (jsFile n).isSome = true) :
    jsFile n = some (fileD n) := by
  cases hjs : jsFile n with
  | none => rw [hjs] at h; cases h
  | some a => simp [fileD, hjs]

theorem backend_legacy_perm (ns : List NodeIn)
    (hid : (ns.map NodeIn.id).Nodup)
    (hw : ∀ n ∈ ns, (jsFile n).isSome = true) :
    ∀ es : List EdgeIn, (∀ e ∈ es, ∃ n ∈ ns, n.id = e.source) →
    (es.map (edgeOf ns)).Perm
      ((ns.map (fun n => (es.filter (fun e => decide (e.source = n.id))).map
        (fun e => (⟨some (fileD n), nodeMapLookup ns e.target⟩ : PEdge)))).flatten) := by
  intro es
  induction es with
  | nil =>
    intro _
    simp only [List.map_nil, List.filter_nil]
    rw [flatten_map_nil]
  | cons e rest ih =>
    intro hsrc
    obtain ⟨n₀, hn₀, hid₀⟩ := hsrc e (List.mem_cons_self e rest)
    have ihrest := ih (fun e2 he2 => hsrc e2 (List.mem_cons_of_mem e he2))
    have hlook : nodeMapLookup ns e.source = some (fileD n₀) := by
      rw [nodeMapLookup_nodup ns e.source n₀ hid hn₀ hid₀]
      exact jsFile_eq_some n₀ (hw n₀ hn₀)
    obtain ⟨l₁, l₂, hsplit⟩ := List.append_of_mem hn₀
    subst hsplit
    have hids : (∀ m ∈ l₁, m.id ≠ e.source) ∧ (∀ m ∈ l₂, m.id ≠ e.source) := by
      have hid2 := hid
      rw [List.map_append, List.map_cons, List.nodup_middle, List.nodup_cons] at hid2
      obtain ⟨hnotin, _⟩ := hid2
      rw [← List.map_append, List.mem_map] at hnotin
      constructor
      · intro m hm hmeq
        exact hnotin ⟨m, List.mem_append_left l₂ hm, hmeq.trans hid₀.symm⟩
      · intro m hm hmeq
        exact hnotin ⟨m, List.mem_append_right l₁ hm, hmeq.trans hid₀.symm⟩
    rw [List.map_cons]
    refine (List.Perm.cons (edgeOf (l₁ ++ n₀ :: l₂) e) ihrest).trans ?_
    refine (flatten_split
      (fun n => ((e :: rest).filter (fun e2 => decide (e2.source = n.id))).map
        (fun e2 => (⟨some (fileD n), nodeMapLookup (l₁ ++ n₀ :: l₂) e2.target⟩ : PEdge)))
      (fun n => (rest.filter (fun e2 => decide (e2.source = n.id))).map
        (fun e2 => (⟨some (fileD n), nodeMapLookup (l₁ ++ n₀ :: l₂) e2.target⟩ : PEdge)))
      l₁ l₂ n₀ (edgeOf (l₁ ++ n₀ :: l₂) e) ?_ ?_ ?_).symm
    · intro m hm
      have hne2 : ¬ (e.source = m.id) := fun hh => hids.1 m hm hh.symm
      simp [List.filter_cons, hne2]
    · intro m hm
      have hne2 : ¬ (e.source = m.id) := fun hh => hids.2 m hm hh.symm
      simp [List.filter_cons, hne2]
    · have hsm : e.source = n₀.id := hid₀.symm
      simp only [List.filter_cons, decide_eq_true_eq, if_pos hsm, List.map_cons]
      rw [show edgeOf (l₁ ++ n₀ :: l₂) e
        = (⟨some (fileD n₀), nodeMapLookup (l₁ ++ n₀ :: l₂) e.target⟩ : PEdge) from by
          simp [edgeOf, hlook]]

theorem group_edges_eq (ns : List NodeIn) (n : NodeIn) : ∀ (es : List EdgeIn),
    (∀ e ∈ es, (nodeMapLookup ns e.target).isSome = true) →
    (es.filterMap (fun e => if e.source = n.id then nodeMapLookup ns e.target else none)).map
        (fun imp => (⟨some (fileD n), some imp⟩ : PEdge))
      = (es.filter (fun e => decide (e.source = n.id))).map
        (fun e => (⟨some (fileD n), nodeMapLookup ns e.target⟩ : PEdge))
  | [] => by intro _; rfl
  | e :: rest => by
    intro h
    have hres := h e (List.mem_cons_self e rest)
    obtain ⟨t, ht⟩ := Option.isSome_iff_exists.mp hres
    have ihe := group_edges_eq ns n rest (fun e2 he2 => h e2 (List.mem_cons_of_mem e he2))
    by_cases hsm : e.source = n.id
    · rw [List.filterMap_cons, List.filter_cons]
      simp only [if_pos hsm, ht, decide_eq_true_eq, List.map_cons, ihe]
    · rw [List.filterMap_cons, List.filter_cons]
      simp only [if_neg hsm, decide_eq_true_eq, ihe]

theorem filterMap_nodeOf_files : ∀ (entries : List (String × Option (List String))),
    (∀ entry ∈ entries, entry.2.isSome = true) →
    ((entries.filterMap (fun entry => entry.2.map
        (fun imps => (⟨some entry.1, imps, none, none⟩ : PNode)))).map PNode.file)
      = entries.map (fun entry => some entry.1)
  | [] => by intro _; rfl
  | entry :: rest => by
    intro h
    obtain ⟨imps, himps⟩ := Option.isSome_iff_exists.mp (h entry (List.mem_cons_self entry rest))
    have ihr := filterMap_nodeOf_files rest (fun e2 he2 => h e2 (List.mem_cons_of_mem entry he2))
    simp [List.filterMap_cons, himps, ihr]

/-! ## Claim C8: backend and legacy inputs describing the same graph -/

/-- Claim C8: for a backend graph whose node ids are distinct and map to
defined files, and whose edges reference node ids, processing the backend
input and processing the corresponding legacy mapping (one entry per node,
imports in edge order, unresolved targets dropped) yield the same node
file list, permutation-equal edge lists, and the same connection-count
mapping. -/
theorem claim_C8 (ns : List NodeIn) (es : List EdgeIn)
    (hw : ∀ n ∈ ns, (jsFile n).isSome = true)
    (hid : (ns.map NodeIn.id).Nodup)
    (hsrc : ∀ e ∈ es, ∃ n ∈ ns, n.id = e.source)
    (htgt : ∀ e ∈ es, ∃ n ∈ ns, n.id = e.target) :
    processedBackend ns es = some (processedBackendCore ns es)
    ∧ (processedBackendCore ns es).nodes.map PNode.file
        = (processedLegacyCore (legacyOf ns es)).nodes.map PNode.file
    ∧ (processedBackendCore ns es).edges.Perm (processedLegacyCore (legacyOf ns es)).edges
    ∧ ∀ q : String, lookupCount (processedBackendCore ns es).connectionCounts q
        = lookupCount (processedLegacyCore (legacyOf ns es)).connectionCounts q := by
  have hres : ∀ e ∈ es, (nodeMapLookup ns e.target).isSome = true := by
    intro e he
    obtain ⟨m, hm, _, hl⟩ := nodeMapLookup_mem ns e.target (htgt e he)
    rw [hl]
    exact hw m hm
  have hgroups : (legacyOf ns es).map entryEdges
      = ns.map (fun n => (es.filter (fun e => decide (e.source = n.id))).map
          (fun e => (⟨some (fileD n), nodeMapLookup ns e.target⟩ : PEdge))) := by
    show ((ns.map _).map entryEdges) = _
    rw [List.map_map]
    apply List.map_congr_left
    intro n _
    show entryEdges (fileD n,
        some (es.filterMap (fun e => if e.source = n.id then nodeMapLookup ns e.target else none)))
      = _
    rw [show entryEdges (fileD n,
        some (es.filterMap (fun e => if e.source = n.id then nodeMapLookup ns e.target else none)))
      = (es.filterMap (fun e => if e.source = n.id then nodeMapLookup ns e.target else none)).map
          (fun imp => ⟨some (fileD n), some imp⟩) from rfl]
    exact group_edges_eq ns n es hres
  have hperm : (processedBackendCore ns es).edges.Perm
      (processedLegacyCore (legacyOf ns es)).edges := by
    rw [processedBackendCore_edges, processedLegacyCore_edges, legacyEdgesOf_eq_flatten, hgroups]
    exact backend_legacy_perm ns hid hw es hsrc
  refine ⟨?_, ?_, hperm, ?_⟩
  · unfold processedBackend
    rw [if_pos (List.all_eq_true.mpr hw)]
  · rw [backend_nodes_files, processedLegacyCore_nodes]
    rw [filterMap_nodeOf_files (legacyOf ns es) (by
      intro entry hentry
      obtain ⟨n, _, rfl⟩ := List.mem_map.mp hentry
      rfl)]
    show _ = ((ns.map fun n => (fileD n,
        some (es.filterMap fun e => if e.source = n.id then nodeMapLookup ns e.target
          else none))).map fun entry => some entry.1)
    rw [List.map_map]
    apply List.map_congr_left
    intro n hn
    exact jsFile_eq_some n (hw n hn)
  · intro q
    rw [processedBackendCore_counts, processedLegacyCore_counts]
    have := (hperm.map (wkey q)).sum_eq
    rw [processedBackendCore_edges, processedLegacyCore_edges] at this
    exact this

/-- Witness for C8 on the sample graph at a concrete count key. -/
theorem claim_C8_witness :
    processedBackend sampleNodes sampleEdges = some (processedBackendCore sampleNodes sampleEdges)
    ∧ (processedBackendCore sampleNodes sampleEdges).nodes.map PNode.file
        = (processedLegacyCore (legacyOf sampleNodes sampleEdges)).nodes.map PNode.file
    ∧ (processedBackendCore sampleNodes sampleEdges).edges.Perm
        (processedLegacyCore (legacyOf sampleNodes sampleEdges)).edges
    ∧ lookupCount (processedBackendCore sampleNodes sampleEdges).connectionCounts "src/b.py"
        = lookupCount (processedLegacyCore (legacyOf sampleNodes sampleEdges)).connectionCounts
            "src/b.py" := by
  have h := claim_C8 sampleNodes sampleEdges (by decide) (by decide) (by decide) (by decide)
  exact ⟨h.1, h.2.1, h.2.2.1, h.2.2.2 "src/b.py"⟩

end Hackday
